import Mathlib

/-!
Verification of the RustQuant autodiff tape (`src/autodiff/tape.rs`), a
Wengert list: an append-only vector of vertices, each holding two parent
indices and two local partial-derivative coefficients.

The embedding is a shallow one: the `RefCell<Vec<Vertex>>` state is threaded
explicitly, so every mutating method of the Rust `Tape` becomes a function
from a tape to (result × new tape). `f64` values are only ever stored and
copied by this component (never computed with), so they are modelled by
Lean `Float` and all proofs are structural.
-/

namespace RustQuant

/-- Operation arity tag (`OperationArity` in the source), on which
`Tape.push` dispatches. -/
inductive OperationArity where
  | Nullary
  | Unary
  | Binary
  deriving DecidableEq, Repr

/-- A vertex of the Wengert list (`Vertex` in the source): two local
partial-derivative coefficients and two parent indices. -/
structure Vertex where
  partials : Float × Float
  parents : Nat × Nat

/-- The tape (`Tape` in the source): the vector of vertices. The source
wraps the vector in a `RefCell`; here the state is passed explicitly. -/
structure Tape where
  vertices : List Vertex

/-- `Tape::new` — an empty tape. -/
def Tape.new : Tape := ⟨[]⟩

/-- `Tape::len` — `self.vertices.borrow().len()`. -/
def Tape.len (t : Tape) : Nat := t.vertices.length

/-- `Tape::is_empty` — `self.vertices.borrow().len() == 0`. -/
def Tape.is_empty (t : Tape) : Bool := t.vertices.length == 0

/-- `Tape::clear` — `self.vertices.borrow_mut().clear()`. -/
def Tape.clear (_t : Tape) : Tape := ⟨[]⟩

/-- `Tape::zero` — overwrite every vertex's `partials` with `[0.0; 2]`. -/
def Tape.zero (t : Tape) : Tape :=
  ⟨t.vertices.map fun vertex => { vertex with partials := (0.0, 0.0) }⟩

/-- `Tape::push` — the generic recording entry point: reads the current
length, builds a vertex by dispatching on the arity, appends it and
returns the old length as the new vertex's index. -/
def Tape.push (t : Tape) (operation : OperationArity)
    (parents : Nat × Nat) (partials : Float × Float) : Nat × Tape :=
  let len := t.vertices.length
  let vertex :=
    match operation with
    | OperationArity.Nullary =>
        Vertex.mk (0.0, 0.0) (len, len)
    | OperationArity.Unary =>
        Vertex.mk (partials.1, 0.0) (parents.1, len)
    | OperationArity.Binary =>
        Vertex.mk (partials.1, partials.2) (parents.1, parents.2)
  (len, ⟨t.vertices ++ [vertex]⟩)

/-- `Tape::push_nullary` — appends a self-referential leaf vertex with zero
partials (the source duplicates the logic rather than calling `push`). -/
def Tape.push_nullary (t : Tape) : Nat × Tape :=
  let len := t.vertices.length
  (len, ⟨t.vertices ++ [Vertex.mk (0.0, 0.0) (len, len)]⟩)

/-- `Tape::push_unary` — appends a vertex with one real parent, the second
slot self-referential with a zero coefficient. -/
def Tape.push_unary (t : Tape) (parent0 : Nat) (partial0 : Float) : Nat × Tape :=
  let len := t.vertices.length
  (len, ⟨t.vertices ++ [Vertex.mk (partial0, 0.0) (parent0, len)]⟩)

/-- `Tape::push_binary` — appends a vertex with both parent and both
partial slots taken verbatim from the arguments. -/
def Tape.push_binary (t : Tape) (parent0 : Nat) (partial0 : Float)
    (parent1 : Nat) (partial1 : Float) : Nat × Tape :=
  let len := t.vertices.length
  (len, ⟨t.vertices ++ [Vertex.mk (partial0, partial1) (parent0, parent1)]⟩)

/-- A variable handle (`Variable` in the source): the numeric value and the
index of its vertex. The source also stores a reference back to the tape;
in this embedding there is a single tape state threaded explicitly, so
every handle refers to that one tape and the reference is implicit. -/
structure Variable where
  value : Float
  index : Nat

/-- `Tape::var` — records a leaf via `push_nullary` and bundles the value
with the returned index. -/
def Tape.var (t : Tape) (value : Float) : Variable × Tape :=
  let r := t.push_nullary
  (⟨value, r.1⟩, r.2)

/-- `Tape::vars` — `values.iter().map(|&val| self.var(val)).collect()`:
records each value in input order, collecting the handles in order. -/
def Tape.vars (t : Tape) : List Float → List Variable × Tape
  | [] => ([], t)
  | value :: rest =>
    let r := t.var value
    let rs := r.2.vars rest
    (r.1 :: rs.1, rs.2)

/-- Modelled from the spec: calling `var` once per value in a loop,
appending each returned handle to an output sequence. Used to state the
refinement claim about `Tape.vars`. -/
def Tape.varLoop (t : Tape) (values : List Float) : List Variable × Tape :=
  values.foldl
    (fun acc value =>
      let r := Tape.var acc.2 value
      (acc.1 ++ [r.1], r.2))
    ([], t)

/-- One recording call, with its arguments: the four recording entry
points of the source. -/
inductive RecCall where
  | push (operation : OperationArity) (parents : Nat × Nat) (partials : Float × Float)
  | pushNullary
  | pushUnary (parent0 : Nat) (partial0 : Float)
  | pushBinary (parent0 : Nat) (partial0 : Float) (parent1 : Nat) (partial1 : Float)

/-- Execute one recording call on a tape. -/
def RecCall.run (t : Tape) : RecCall → Nat × Tape
  | .push operation ps qs => t.push operation ps qs
  | .pushNullary => t.push_nullary
  | .pushUnary p0 d0 => t.push_unary p0 d0
  | .pushBinary p0 d0 p1 d1 => t.push_binary p0 d0 p1 d1

/-- The vertex a recording call appends when the tape's length is `len`
(read off the four entry points of the source). -/
def RecCall.newVertex (len : Nat) : RecCall → Vertex
  | .push .Nullary _ _ => Vertex.mk (0.0, 0.0) (len, len)
  | .push .Unary ps qs => Vertex.mk (qs.1, 0.0) (ps.1, len)
  | .push .Binary ps qs => Vertex.mk (qs.1, qs.2) (ps.1, ps.2)
  | .pushNullary => Vertex.mk (0.0, 0.0) (len, len)
  | .pushUnary p0 d0 => Vertex.mk (d0, 0.0) (p0, len)
  | .pushBinary p0 d0 p1 d1 => Vertex.mk (d0, d1) (p0, p1)

/-- Execute a sequence of recording calls, collecting the returned indices. -/
def runCalls (t : Tape) : List RecCall → List Nat × Tape
  | [] => ([], t)
  | c :: cs =>
    let r := RecCall.run t c
    let rs := runCalls r.2 cs
    (r.1 :: rs.1, rs.2)

/-- Check that, counting positions from `i`, every vertex's parent indices
are at most its own position (backward edges or the self sentinel). -/
def checkBackward : Nat → List Vertex → Bool
  | _, [] => true
  | i, v :: vs =>
    (decide (v.parents.1 ≤ i) && decide (v.parents.2 ≤ i)) && checkBackward (i + 1) vs

/-- The claimed tape invariant: every parent index in every vertex is at
most the vertex's own index. -/
def Tape.parentsBackward (t : Tape) : Bool := checkBackward 0 t.vertices

/-- A recording call is valid at tape length `n` when every real parent
index it supplies refers to an already-recorded vertex (is `< n`). -/
def RecCall.validAt (n : Nat) : RecCall → Bool
  | .push .Nullary _ _ => true
  | .push .Unary ps _ => decide (ps.1 < n)
  | .push .Binary ps _ => decide (ps.1 < n) && decide (ps.2 < n)
  | .pushNullary => true
  | .pushUnary p0 _ => decide (p0 < n)
  | .pushBinary p0 _ p1 _ => decide (p0 < n) && decide (p1 < n)

/-- All calls in a sequence are valid, starting from tape length `n`
(each call grows the tape by one). -/
def validCallsFrom : Nat → List RecCall → Bool
  | _, [] => true
  | n, c :: cs => c.validAt n && validCallsFrom (n + 1) cs

/-- Every recording call reads the current length, appends the vertex
described by `RecCall.newVertex` at that length, and returns the length. -/
theorem RecCall.run_eq (t : Tape) (c : RecCall) :
    c.run t = (t.len, ⟨t.vertices ++ [c.newVertex t.len]⟩) := by
  cases c with
  | push operation ps qs => cases operation <;> rfl
  | pushNullary => rfl
  | pushUnary p0 d0 => rfl
  | pushBinary p0 d0 p1 d1 => rfl

/-- The index returned by any recording call is the length before the call. -/
theorem RecCall.run_fst (t : Tape) (c : RecCall) : (c.run t).1 = t.len := by
  rw [RecCall.run_eq]

/-- Any recording call grows the tape by exactly one vertex. -/
theorem RecCall.run_snd_len (t : Tape) (c : RecCall) : (c.run t).2.len = t.len + 1 := by
  rw [RecCall.run_eq]
  simp [Tape.len]

/-- The indices returned by a sequence of recording calls count up from the
starting length. -/
theorem runCalls_fst (cs : List RecCall) (t : Tape) :
    (runCalls t cs).1 = List.range' t.len cs.length := by
  induction cs generalizing t with
  | nil => rfl
  | cons c cs ih =>
    have h1 : (runCalls t (c :: cs)).1 = (c.run t).1 :: (runCalls (c.run t).2 cs).1 := rfl
    rw [h1, RecCall.run_fst, ih, RecCall.run_snd_len, List.length_cons, List.range'_succ]

/-- Appending one vertex to the checked list adds exactly one backward-edge
condition, at position `i + xs.length`. -/
theorem checkBackward_append (xs : List Vertex) (v : Vertex) (i : Nat) :
    checkBackward i (xs ++ [v]) =
      (checkBackward i xs &&
        (decide (v.parents.1 ≤ i + xs.length) && decide (v.parents.2 ≤ i + xs.length))) := by
  induction xs generalizing i with
  | nil => simp [checkBackward]
  | cons x xs ih =>
    have hlen : i + 1 + xs.length = i + (xs.length + 1) := by omega
    simp [checkBackward, ih, hlen, Bool.and_assoc]

/-- A call that is valid at length `n` appends a vertex whose parent indices
are both at most `n` (the index the new vertex receives). -/
theorem validAt_newVertex {n : Nat} {c : RecCall} (h : c.validAt n = true) :
    (c.newVertex n).parents.1 ≤ n ∧ (c.newVertex n).parents.2 ≤ n := by
  cases c with
  | push operation ps qs =>
    cases operation with
    | Nullary => exact ⟨Nat.le_refl n, Nat.le_refl n⟩
    | Unary =>
      simp only [RecCall.validAt, decide_eq_true_eq] at h
      exact ⟨Nat.le_of_lt h, Nat.le_refl n⟩
    | Binary =>
      simp only [RecCall.validAt, Bool.and_eq_true, decide_eq_true_eq] at h
      exact ⟨Nat.le_of_lt h.1, Nat.le_of_lt h.2⟩
  | pushNullary => exact ⟨Nat.le_refl n, Nat.le_refl n⟩
  | pushUnary p0 d0 =>
    simp only [RecCall.validAt, decide_eq_true_eq] at h
    exact ⟨Nat.le_of_lt h, Nat.le_refl n⟩
  | pushBinary p0 d0 p1 d1 =>
    simp only [RecCall.validAt, Bool.and_eq_true, decide_eq_true_eq] at h
    exact ⟨Nat.le_of_lt h.1, Nat.le_of_lt h.2⟩

/-- One valid recording call preserves the backward-edge invariant. -/
theorem parentsBackward_run {t : Tape} {c : RecCall}
    (ht : t.parentsBackward = true) (hc : c.validAt t.len = true) :
    (c.run t).2.parentsBackward = true := by
  obtain ⟨h1, h2⟩ := validAt_newVertex hc
  rw [RecCall.run_eq]
  unfold Tape.parentsBackward at ht ⊢
  rw [checkBackward_append, ht]
  simp only [Tape.len] at h1 h2
  simp [Tape.len, h1, h2]

/-- A sequence of valid recording calls preserves the backward-edge
invariant. -/
theorem parentsBackward_runCalls (cs : List RecCall) (t : Tape)
    (ht : t.parentsBackward = true) (hv : validCallsFrom t.len cs = true) :
    ((runCalls t cs).2).parentsBackward = true := by
  induction cs generalizing t with
  | nil => exact ht
  | cons c cs ih =>
    have hsplit : c.validAt t.len = true ∧ validCallsFrom (t.len + 1) cs = true := by
      simpa [validCallsFrom, Bool.and_eq_true] using hv
    have h2 : (runCalls t (c :: cs)).2 = (runCalls (c.run t).2 cs).2 := rfl
    rw [h2]
    refine ih _ (parentsBackward_run ht hsplit.1) ?_
    rw [RecCall.run_snd_len]
    exact hsplit.2

/-- Folding `var` over a value list with an accumulator produces the
accumulator followed by the handles of `Tape.vars`. -/
theorem vars_foldl (values : List Float) (t : Tape) (acc : List Variable) :
    values.foldl
      (fun a value =>
        let r := Tape.var a.2 value
        (a.1 ++ [r.1], r.2))
      (acc, t)
    = (acc ++ (t.vars values).1, (t.vars values).2) := by
  induction values generalizing t acc with
  | nil => simp [Tape.vars]
  | cons v vs ih =>
    simp only [List.foldl_cons, Tape.vars]
    rw [ih]
    simp

/-- The handles returned by `Tape.vars` carry the input values in order. -/
theorem vars_map_value (values : List Float) (t : Tape) :
    ((t.vars values).1).map Variable.value = values := by
  induction values generalizing t with
  | nil => rfl
  | cons v vs ih => simp [Tape.vars, Tape.var, ih]

/-- Claim C1: every recording operation (push, push_nullary, push_unary,
push_binary) returns the tape's length immediately before the call, and any
sequence of n recording calls starting from a freshly created or
just-cleared tape returns exactly the indices 0, 1, ..., n-1 in call
order. -/
theorem claim_C1_indices :
    (∀ (t : Tape) (c : RecCall), (c.run t).1 = t.len) ∧
    (∀ cs : List RecCall, (runCalls Tape.new cs).1 = List.range cs.length) ∧
    (∀ (t : Tape) (cs : List RecCall),
      (runCalls t.clear cs).1 = List.range cs.length) := by
  refine ⟨RecCall.run_fst, fun cs => ?_, fun t cs => ?_⟩
  · rw [runCalls_fst, List.range_eq_range']
    rfl
  · rw [runCalls_fst, List.range_eq_range']
    rfl

/-- Claim C2 counterexample: the claimed invariant fails for arbitrary
arguments, because the code validates nothing: pushing a binary vertex with
parent arguments 5 and 7 onto a fresh tape stores parents (5, 7) at index 0,
both pointing past the vertex itself. -/
theorem claim_C2_counterexample :
    ((runCalls Tape.new [RecCall.pushBinary 5 0.0 7 0.0]).2).parentsBackward = false ∧
    ((runCalls Tape.new [RecCall.pushBinary 5 0.0 7 0.0]).2).vertices.map Vertex.parents
      = [(5, 7)] :=
  ⟨rfl, rfl⟩

/-- Claim C2 (amended): in every tape state reachable from a fresh tape by
recording calls in which every supplied parent argument refers to an
already-recorded vertex (is less than the tape length at the moment of the
call), every parent index stored in every vertex is at most that vertex's
own index — strictly less, or equal to it as the self-reference sentinel —
so parent edges always point backward. -/
theorem claim_C2_backward_edges (cs : List RecCall)
    (hv : validCallsFrom Tape.new.len cs = true) :
    ((runCalls Tape.new cs).2).parentsBackward = true :=
  parentsBackward_runCalls cs Tape.new rfl hv

/-- Witness for the amended claim C2 at a concrete valid call sequence. -/
theorem claim_C2_backward_edges_witness :
    validCallsFrom Tape.new.len
        [RecCall.pushNullary, RecCall.pushUnary 0 1.5,
          RecCall.pushBinary 0 2.5 1 3.5] = true ∧
    ((runCalls Tape.new
        [RecCall.pushNullary, RecCall.pushUnary 0 1.5,
          RecCall.pushBinary 0 2.5 1 3.5]).2).parentsBackward = true :=
  ⟨rfl, claim_C2_backward_edges _ rfl⟩

/-- Claim C3: every leaf recording — push with Nullary arity (for any
caller-supplied parents and partials, which it ignores entirely),
push_nullary, or var — appends a vertex with parents (idx, idx) and
partials (0.0, 0.0), where idx is the new vertex's own index. -/
theorem claim_C3_leaf (t : Tape) (ps : Nat × Nat) (qs : Float × Float) (value : Float) :
    t.push OperationArity.Nullary ps qs
      = (t.len, ⟨t.vertices ++ [Vertex.mk (0.0, 0.0) (t.len, t.len)]⟩) ∧
    t.push_nullary
      = (t.len, ⟨t.vertices ++ [Vertex.mk (0.0, 0.0) (t.len, t.len)]⟩) ∧
    (t.var value).1 = Variable.mk value t.len ∧
    (t.var value).2 = ⟨t.vertices ++ [Vertex.mk (0.0, 0.0) (t.len, t.len)]⟩ :=
  ⟨rfl, rfl, rfl, rfl⟩

/-- Claim C4: push_unary(p, d) appends a vertex with parents (p, idx) and
partials (d, 0.0) where idx is the new vertex's own index, and
push_binary(p0, d0, p1, d1) appends a vertex with parents (p0, p1) and
partials (d0, d1) verbatim, with no reordering or swapping. -/
theorem claim_C4_unary_binary (t : Tape) (p0 : Nat) (d0 : Float)
    (q0 q1 : Nat) (e0 e1 : Float) :
    t.push_unary p0 d0
      = (t.len, ⟨t.vertices ++ [Vertex.mk (d0, 0.0) (p0, t.len)]⟩) ∧
    t.push_binary q0 e0 q1 e1
      = (t.len, ⟨t.vertices ++ [Vertex.mk (e0, e1) (q0, q1)]⟩) :=
  ⟨rfl, rfl⟩

/-- Claim C5: each specialized recorder produces exactly the state and
return value of the equivalent generic push call: push_nullary equals
push(Nullary, _, _) for any supplied arguments, push_unary(p, d) equals
push(Unary, (p, x), (d, y)) for any x and y, and push_binary(p0, d0, p1, d1)
equals push(Binary, (p0, p1), (d0, d1)). -/
theorem claim_C5_specialized_generic (t : Tape) (ps : Nat × Nat) (qs : Float × Float)
    (p0 : Nat) (d0 : Float) (x : Nat) (y : Float)
    (q0 q1 : Nat) (e0 e1 : Float) :
    t.push_nullary = t.push OperationArity.Nullary ps qs ∧
    t.push_unary p0 d0 = t.push OperationArity.Unary (p0, x) (d0, y) ∧
    t.push_binary q0 e0 q1 e1 = t.push OperationArity.Binary (q0, q1) (e0, e1) :=
  ⟨rfl, rfl, rfl⟩

/-- Claim C6: vars(values) produces exactly the final tape state and the
handle sequence of calling var once per value in a loop (all handles refer
to the single threaded tape), and the output preserves input order: the
handles carry the input values in order. -/
theorem claim_C6_vars_loop (t : Tape) (values : List Float) :
    t.vars values = t.varLoop values ∧
    ((t.vars values).1).map Variable.value = values := by
  constructor
  · rw [Tape.varLoop, vars_foldl]
    simp
  · exact vars_map_value values t

/-- Claim C7: zero() preserves the tape's length and every vertex's parents
(positionally) while setting every vertex's partials to (0.0, 0.0). -/
theorem claim_C7_zero (t : Tape) :
    (t.zero).len = t.len ∧
    ((t.zero).vertices).map Vertex.parents = (t.vertices).map Vertex.parents ∧
    ∀ v ∈ (t.zero).vertices, v.partials = (0.0, 0.0) := by
  refine ⟨by simp [Tape.zero, Tape.len], by simp [Tape.zero, List.map_map], ?_⟩
  intro v hv
  simp only [Tape.zero, List.mem_map] at hv
  obtain ⟨w, _, rfl⟩ := hv
  rfl

/-- Witness for claim C7 at a concrete one-vertex tape. -/
theorem claim_C7_zero_witness :
    ((⟨[Vertex.mk (1.5, 2.5) (3, 4)]⟩ : Tape).zero).len
      = (⟨[Vertex.mk (1.5, 2.5) (3, 4)]⟩ : Tape).len ∧
    Vertex.mk (0.0, 0.0) (3, 4)
      ∈ ((⟨[Vertex.mk (1.5, 2.5) (3, 4)]⟩ : Tape).zero).vertices ∧
    (Vertex.mk (0.0, 0.0) (3, 4)).partials = (0.0, 0.0) := by
  have hm : Vertex.mk (0.0, 0.0) (3, 4)
      ∈ ((⟨[Vertex.mk (1.5, 2.5) (3, 4)]⟩ : Tape).zero).vertices :=
    List.mem_singleton.mpr rfl
  exact ⟨(claim_C7_zero _).1, hm, (claim_C7_zero _).2.2 _ hm⟩

/-- Claim C8: after clear() the tape has length 0 and is_empty holds, and
the next recording call (of any kind) returns index 0. -/
theorem claim_C8_clear (t : Tape) (c : RecCall) :
    (t.clear).len = 0 ∧ (t.clear).is_empty = true ∧ (c.run t.clear).1 = 0 := by
  refine ⟨rfl, rfl, ?_⟩
  rw [RecCall.run_fst]
  rfl

/-- Claim C9: every recording call appends exactly one vertex at the end
and leaves the contents and positions of all previously recorded vertices
unchanged: the old vertex list is the prefix of the new one and exactly one
vertex follows it. -/
theorem claim_C9_append_only (t : Tape) (c : RecCall) :
    ((c.run t).2).len = t.len + 1 ∧
    ((c.run t).2).vertices.take t.len = t.vertices ∧
    ((c.run t).2).vertices.drop t.len = [RecCall.newVertex t.len c] := by
  simp only [RecCall.run_eq, Tape.len]
  exact ⟨by simp, List.take_left _ _, List.drop_left _ _⟩

/-- Claim C10: the outcome of any recording call depends only on the tape's
length and the call's arguments: on two tapes of equal length, the same
call returns the same index and appends the identical vertex. -/
theorem claim_C10_length_determined (t1 t2 : Tape) (c : RecCall)
    (h : t1.len = t2.len) :
    (c.run t1).1 = (c.run t2).1 ∧
    ((c.run t1).2).vertices.drop t1.len = ((c.run t2).2).vertices.drop t2.len := by
  constructor
  · rw [RecCall.run_fst, RecCall.run_fst, h]
  · simp only [RecCall.run_eq, Tape.len] at h ⊢
    rw [List.drop_left, List.drop_left, h]

/-- Witness for claim C10: two different one-vertex tapes, one binary call. -/
theorem claim_C10_length_determined_witness :
    (⟨[Vertex.mk (1.5, 2.5) (0, 0)]⟩ : Tape).len
      = (⟨[Vertex.mk (9.5, 8.5) (7, 9)]⟩ : Tape).len ∧
    ((RecCall.pushBinary 0 4.5 0 5.5).run ⟨[Vertex.mk (1.5, 2.5) (0, 0)]⟩).1
      = ((RecCall.pushBinary 0 4.5 0 5.5).run ⟨[Vertex.mk (9.5, 8.5) (7, 9)]⟩).1 ∧
    (((RecCall.pushBinary 0 4.5 0 5.5).run
        ⟨[Vertex.mk (1.5, 2.5) (0, 0)]⟩).2).vertices.drop
          (⟨[Vertex.mk (1.5, 2.5) (0, 0)]⟩ : Tape).len
      = (((RecCall.pushBinary 0 4.5 0 5.5).run
        ⟨[Vertex.mk (9.5, 8.5) (7, 9)]⟩).2).vertices.drop
          (⟨[Vertex.mk (9.5, 8.5) (7, 9)]⟩ : Tape).len :=
  ⟨rfl, (claim_C10_length_determined _ _ _ rfl).1,
    (claim_C10_length_determined _ _ _ rfl).2⟩

end RustQuant
